import Mathlib

/-!
Verification of the register-allocation context (`RAContext`) of
`src/src/asmjit/base/compilercontext.cpp`.

The development shallowly embeds the memory-cell store (`_newVarCell`,
`_newStackCell`, `resolveCellOffsets`), the unreachable-code sweep
(`removeUnreachableCode`), the cleanup routine (`cleanup`) and the liveness
solver (`livenessAnalysis`) of that file.

Modelling conventions:
* C++ `uint32_t` arithmetic is modelled on `ℕ` with an explicit reduction
  `u32` applied at every arithmetic operation whose operands are `uint32_t`
  values derived from cell sizes or offsets.  Counter increments
  (`_mem1ByteVarsUsed++`, `_memStackCellsUsed++`, ...) are left unreduced:
  reaching the wrap-around would require `2^32` prior allocations.
* Arena allocation never fails in the model (the `_NoMemory` paths of the
  source are unreachable under this assumption); `ASMJIT_NOT_REACHED` and
  failed `ASMJIT_ASSERT` situations are modelled by `Option`/`Ctl.fault`
  results.
* Helper routines whose definitions live in headers that are not part of
  this source snapshot (`utils.h`, `compilercontext_p.h`) are modelled from
  the spec; each such definition carries a doc comment starting with
  `Modelled from the spec:`.
-/

namespace AsmJitRA

/-- Reduction modulo `2^32`, modelling C++ `uint32_t` arithmetic. -/
def u32 (n : ℕ) : ℕ := n % 4294967296

/-- Modelled from the spec: `Utils::alignTo` (`utils.h` is not part of this
source snapshot).  The spec says "Round `size` up to a multiple of
`alignment`" (§4.C′). -/
def alignTo (size alignment : ℕ) : ℕ :=
  if alignment = 0 then size else ((size + alignment - 1) / alignment) * alignment

/-- Embedding of `BaseContext_getDefaultAlignment`
(compilercontext.cpp lines 81-96). -/
def getDefaultAlignment (size : ℕ) : ℕ :=
  if size > 32 then 64
  else if size > 16 then 32
  else if size > 8 then 16
  else if size > 4 then 8
  else if size > 2 then 4
  else if size > 1 then 2
  else 1

/-- Embedding of `RACell` (a memory slot): `size`, `alignment` and the
`offset` filled in by `resolveCellOffsets`.  The intrusive `next` link is
represented by membership in a `List`. -/
structure RACell where
  size : ℕ
  alignment : ℕ
  offset : ℕ
deriving DecidableEq

/-- Embedding of the cell-store part of the `RAContext` state: the two cell
lists, the size-class counters and the memory totals
(compilercontext.cpp lines 56-71). -/
structure MemState where
  memVarCells : List RACell
  memStackCells : List RACell
  mem1ByteVarsUsed : ℕ
  mem2ByteVarsUsed : ℕ
  mem4ByteVarsUsed : ℕ
  mem8ByteVarsUsed : ℕ
  mem16ByteVarsUsed : ℕ
  mem32ByteVarsUsed : ℕ
  mem64ByteVarsUsed : ℕ
  memStackCellsUsed : ℕ
  memMaxAlign : ℕ
  memVarTotal : ℕ
  memStackTotal : ℕ
  memAllTotal : ℕ
deriving DecidableEq

/-- Embedding of the cell-store fields after `RAContext::reset`
(compilercontext.cpp lines 42-75). -/
def resetState : MemState :=
  ⟨[], [], 0, 0, 0, 0, 0, 0, 0, 0, 0, 0, 0, 0⟩

/-- Embedding of the alignment/size normalisation at the head of
`RAContext::_newStackCell` (lines 147-154): a zero alignment is replaced by
the default derived from the size, the alignment is clamped to 64, and the
size is rounded up to a multiple of the final alignment.  Returns
`(alignment, size)` of the stored cell. -/
def stackCellParams (size alignment : ℕ) : ℕ × ℕ :=
  let alignment1 := if alignment = 0 then getDefaultAlignment size else alignment
  let alignment2 := if alignment1 > 64 then 64 else alignment1
  (alignment2, alignTo size alignment2)

/-- Embedding of the sorted-insertion loop of `RAContext::_newStackCell`
(lines 156-171): the new cell is inserted before the first cell whose
`(alignment, size)` is not lexicographically strictly greater. -/
def insertStackCell (alignment size : ℕ) : List RACell → List RACell
  | [] => [⟨size, alignment, 0⟩]
  | cur :: rest =>
    if cur.alignment > alignment ∨ (cur.alignment = alignment ∧ cur.size > size) then
      cur :: insertStackCell alignment size rest
    else
      ⟨size, alignment, 0⟩ :: cur :: rest

/-- Embedding of `RAContext::_newStackCell` (lines 143-183), under the
infinite-arena assumption (the `_NoMemory` path is unreachable). -/
def newStackCell (s : MemState) (size alignment : ℕ) : MemState :=
  let p := stackCellParams size alignment
  { s with
    memStackCells := insertStackCell p.1 p.2 s.memStackCells
    memStackCellsUsed := s.memStackCellsUsed + 1
    memMaxAlign := max s.memMaxAlign p.1
    memStackTotal := u32 (s.memStackTotal + p.2) }

/-- Embedding of `RAContext::_newVarCell` (lines 98-141) for a virtual
register of the given size and alignment.  A stack-resident register
delegates to `_newStackCell`; otherwise the cell is prepended to the
variable-cell list and the matching size-class counter is incremented.
`none` models the `ASMJIT_NOT_REACHED` hit on a size outside
`{1,2,4,8,16,32,64}`. -/
def newVarCell (s : MemState) (size alignment : ℕ) (isStackReg : Bool) : Option MemState :=
  if isStackReg then
    some (newStackCell s size alignment)
  else
    let base := { s with
      memVarCells := (⟨size, size, 0⟩ : RACell) :: s.memVarCells
      memMaxAlign := max s.memMaxAlign size
      memVarTotal := u32 (s.memVarTotal + size) }
    match size with
    | 1 => some { base with mem1ByteVarsUsed := s.mem1ByteVarsUsed + 1 }
    | 2 => some { base with mem2ByteVarsUsed := s.mem2ByteVarsUsed + 1 }
    | 4 => some { base with mem4ByteVarsUsed := s.mem4ByteVarsUsed + 1 }
    | 8 => some { base with mem8ByteVarsUsed := s.mem8ByteVarsUsed + 1 }
    | 16 => some { base with mem16ByteVarsUsed := s.mem16ByteVarsUsed + 1 }
    | 32 => some { base with mem32ByteVarsUsed := s.mem32ByteVarsUsed + 1 }
    | 64 => some { base with mem64ByteVarsUsed := s.mem64ByteVarsUsed + 1 }
    | _ => none

/-- Size-class base pointers of the variable region. -/
structure VarPos where
  pos64 : ℕ
  pos32 : ℕ
  pos16 : ℕ
  pos8 : ℕ
  pos4 : ℕ
  pos2 : ℕ
  pos1 : ℕ
deriving DecidableEq

/-- Embedding of the size-class base-pointer computation of
`RAContext::resolveCellOffsets` (lines 192-198): classes are laid out
adjacently from the largest to the smallest. -/
def varClassBases (s : MemState) : VarPos :=
  let pos64 : ℕ := 0
  let pos32 := u32 (pos64 + u32 (s.mem64ByteVarsUsed * 64))
  let pos16 := u32 (pos32 + u32 (s.mem32ByteVarsUsed * 32))
  let pos8 := u32 (pos16 + u32 (s.mem16ByteVarsUsed * 16))
  let pos4 := u32 (pos8 + u32 (s.mem8ByteVarsUsed * 8))
  let pos2 := u32 (pos4 + u32 (s.mem4ByteVarsUsed * 4))
  let pos1 := u32 (pos2 + u32 (s.mem2ByteVarsUsed * 2))
  ⟨pos64, pos32, pos16, pos8, pos4, pos2, pos1⟩

/-- Current base pointer of the class for a given cell size. -/
def classPos (p : VarPos) (size : ℕ) : ℕ :=
  if size = 1 then p.pos1
  else if size = 2 then p.pos2
  else if size = 4 then p.pos4
  else if size = 8 then p.pos8
  else if size = 16 then p.pos16
  else if size = 32 then p.pos32
  else if size = 64 then p.pos64
  else 0

/-- Embedding of one iteration of the variable-cell loop of
`resolveCellOffsets` (lines 218-229): the cell receives the current pointer
of its size class and the pointer advances by the class size.  `none`
models the `ASMJIT_NOT_REACHED` default branch. -/
def varStep (p : VarPos) (size : ℕ) : Option (ℕ × VarPos) :=
  match size with
  | 1 => some (p.pos1, { p with pos1 := u32 (p.pos1 + 1) })
  | 2 => some (p.pos2, { p with pos2 := u32 (p.pos2 + 2) })
  | 4 => some (p.pos4, { p with pos4 := u32 (p.pos4 + 4) })
  | 8 => some (p.pos8, { p with pos8 := u32 (p.pos8 + 8) })
  | 16 => some (p.pos16, { p with pos16 := u32 (p.pos16 + 16) })
  | 32 => some (p.pos32, { p with pos32 := u32 (p.pos32 + 32) })
  | 64 => some (p.pos64, { p with pos64 := u32 (p.pos64 + 64) })
  | _ => none

/-- Embedding of the variable-cell loop of `resolveCellOffsets`
(lines 214-233). -/
def assignVarOffsets : List RACell → VarPos → Option (List RACell × VarPos)
  | [], p => some ([], p)
  | c :: rest, p =>
    match varStep p c.size with
    | none => none
    | some (off, p') =>
      match assignVarOffsets rest p' with
      | none => none
      | some (rest', pf) => some ({ c with offset := off } :: rest', pf)

/-- Gap/stack cursor state of the stack-cell loop of `resolveCellOffsets`. -/
structure StackPos where
  gapSize : ℕ
  gapPos : ℕ
  gapAlignment : ℕ
  stackPos : ℕ
  allTotal : ℕ
deriving DecidableEq

/-- Embedding of the stack-cell loop of `resolveCellOffsets`
(lines 236-260): a cell that fits the gap is placed at the gap cursor,
otherwise it is placed at the running stack position. -/
def assignStackOffsets : List RACell → StackPos → List RACell × StackPos
  | [], st => ([], st)
  | c :: rest, st =>
    if c.size ≤ st.gapSize ∧ c.alignment ≤ st.gapAlignment then
      let off := st.gapPos
      let st1 : StackPos :=
        { st with
          gapSize := st.gapSize - c.size
          gapPos := st.gapPos - c.size
          gapAlignment := if c.alignment < st.gapAlignment then c.alignment else st.gapAlignment }
      let r := assignStackOffsets rest st1
      ({ c with offset := off } :: r.1, r.2)
    else
      let off := st.stackPos
      let st1 : StackPos :=
        { st with
          stackPos := u32 (st.stackPos + c.size)
          allTotal := u32 (st.allTotal + c.size) }
      let r := assignStackOffsets rest st1
      ({ c with offset := off } :: r.1, r.2)

/-- Embedding of `RAContext::resolveCellOffsets` (lines 185-264).  Note the
faithfully reproduced dead code of lines 202-208: the source computes
`Utils::alignDiff(stackPos, gapAlignment)` and discards the result
("TODO: Not used!"), so `gapSize` stays `0` and `stackPos` is not aligned
to the stack region's alignment. -/
def resolveCellOffsets (s : MemState) : Option MemState :=
  let stackAlignment :=
    match s.memStackCells with
    | [] => 0
    | c :: _ => c.alignment
  let bases := varClassBases s
  let stackPos0 := u32 (bases.pos1 + s.mem1ByteVarsUsed)
  let gapAlignment := stackAlignment
  let gapSize : ℕ := 0
  let stackPos := stackPos0 + gapSize
  let gapPos := stackPos
  let allTotal := stackPos
  match assignVarOffsets s.memVarCells bases with
  | none => none
  | some (varCells, _) =>
    let r := assignStackOffsets s.memStackCells ⟨gapSize, gapPos, gapAlignment, stackPos, allTotal⟩
    some { s with
      memVarCells := varCells
      memStackCells := r.1
      memAllTotal := r.2.allTotal }

/-- Lexicographic "not smaller" relation maintained by the stack-cell list:
`(alignment, size)` of the left cell is at least `(alignment, size)` of the
right cell. -/
def lexGE (a b : RACell) : Prop :=
  b.alignment < a.alignment ∨ (b.alignment = a.alignment ∧ b.size ≤ a.size)

/-- Every size class of the variable region is valid for `varStep`. -/
def validVarSize (c : RACell) : Prop :=
  c.size = 1 ∨ c.size = 2 ∨ c.size = 4 ∨ c.size = 8 ∨ c.size = 16 ∨ c.size = 32 ∨ c.size = 64

instance : DecidablePred validVarSize := fun c => by
  unfold validVarSize
  infer_instance

/-- Cell counters agree with the variable-cell list and every variable cell
has a valid class size; `_newVarCell` establishes this by construction. -/
def countersMatch (s : MemState) : Prop :=
  s.mem1ByteVarsUsed = (s.memVarCells.filter (fun c => c.size == 1)).length
  ∧ s.mem2ByteVarsUsed = (s.memVarCells.filter (fun c => c.size == 2)).length
  ∧ s.mem4ByteVarsUsed = (s.memVarCells.filter (fun c => c.size == 4)).length
  ∧ s.mem8ByteVarsUsed = (s.memVarCells.filter (fun c => c.size == 8)).length
  ∧ s.mem16ByteVarsUsed = (s.memVarCells.filter (fun c => c.size == 16)).length
  ∧ s.mem32ByteVarsUsed = (s.memVarCells.filter (fun c => c.size == 32)).length
  ∧ s.mem64ByteVarsUsed = (s.memVarCells.filter (fun c => c.size == 64)).length
  ∧ ∀ c ∈ s.memVarCells, validVarSize c

instance (s : MemState) : Decidable (countersMatch s) := by
  unfold countersMatch
  infer_instance

/-- Start of the stack region: the end of the variable region, `pos1 + n1`
(line 200 of the source). -/
def stackRegionStart (s : MemState) : ℕ :=
  u32 ((varClassBases s).pos1 + s.mem1ByteVarsUsed)

/-- Offsets of contiguously placed stack cells: each cell is placed at the
running cursor and the cursor advances by the cell size. -/
def prefixOffsets (base : ℕ) : List ℕ → List ℕ
  | [] => []
  | sz :: rest => base :: prefixOffsets (u32 (base + sz)) rest

/-- Alignment of the head of the (sorted) stack-cell list, used as the gap
alignment (lines 189-190 of the source). -/
def headStackAlignment (s : MemState) : ℕ :=
  match s.memStackCells with
  | [] => 0
  | c :: _ => c.alignment

/-- Scenario state of the spec (§8, scenario 1): three 4-byte variable
cells and two 1-byte variable cells created through `_newVarCell`. -/
def varScenario : Option MemState :=
  ((((newVarCell resetState 4 0 false).bind (fun t => newVarCell t 4 0 false)).bind
    (fun t => newVarCell t 4 0 false)).bind (fun t => newVarCell t 1 0 false)).bind
    (fun t => newVarCell t 1 0 false)

/-- Concrete `MemState` of the three-4-byte/two-1-byte scenario. -/
def varScenarioState : MemState := varScenario.getD resetState

/-- Result of `resolveCellOffsets` on the scenario state. -/
def varResolvedState : MemState := (resolveCellOffsets varScenarioState).getD resetState

/-- State with one 4-byte variable cell and two stack cells, used to
witness the gap/stack-region theorem. -/
def gapScenarioState : MemState :=
  newStackCell (newStackCell ((newVarCell resetState 4 0 false).getD resetState) 8 8) 4 4

/-- Result of `resolveCellOffsets` on `gapScenarioState`. -/
def gapResolvedState : MemState := (resolveCellOffsets gapScenarioState).getD resetState

/-- Embedding of `TiedReg`: the local id of the tied virtual register
(through `vreg->getLocalId()`) plus the `kRAll`/`kWAll` flag bits read by
the solver. -/
structure TiedReg where
  localId : ℕ
  rAll : Bool
  wAll : Bool
deriving DecidableEq

/-- Embedding of the observable `AsmNode` attributes that the RA context
reads: the label/jump type tags, the removable flag, a label's `numRefs`
and its `from`/`jumpNext` chain (as the list of node indices of the jumps
that target it), and the attached work-data's tied-register array (`none`
when `fetch` attached no work-data).  The work-data's `liveness` pointer is
modelled as a side table owned by the solver, indexed by node position. -/
structure Node where
  isLabel : Bool
  isJmp : Bool
  removable : Bool
  numRefs : ℕ
  fromChain : List ℕ
  wd : Option (List TiedReg)
deriving DecidableEq

/-- Embedding of `AsmNode::hasWorkData`. -/
def Node.hasWorkData (n : Node) : Bool := n.wd.isSome

/-- Embedding of the per-run deletion loop of
`RAContext::removeUnreachableCode` (lines 292-314): a removable node is
always deleted; a non-removable label switches `removeEverything` off and
survives; any other non-removable node is deleted exactly when
`removeEverything` is still on.  Returns the surviving nodes of the run. -/
def sweepRun : List Node → Bool → List Node
  | [], _ => []
  | n :: rest, removeEverything =>
    if n.removable then
      sweepRun rest removeEverything
    else
      let regime := if n.isLabel then false else removeEverything
      if regime then
        sweepRun rest regime
      else
        n :: sweepRun rest regime

/-- Embedding of one seed's processing in `removeUnreachableCode`
(lines 276-315): `nodes` is the node sequence from the seed up to (not
including) the `stop` sentinel; the run is the maximal prefix without
work-data (the locate loop of lines 280-285), swept by the deletion loop;
the remainder is untouched. -/
def removeUnreachableFromSeed (nodes : List Node) : List Node :=
  sweepRun (nodes.takeWhile (fun n => !n.hasWorkData)) true
    ++ nodes.dropWhile (fun n => !n.hasWorkData)

/-- Definition following the claim's words (C6): delete every node of the
run until the first label is encountered; from the first label onwards
delete exactly the nodes whose removable flag is true. -/
def claimSweep (run : List Node) : List Node :=
  (run.dropWhile (fun n => !n.isLabel)).filter (fun n => !n.removable)

/-- Run consisting of a removable label followed by a non-removable
instruction node. -/
def removableLabelRun : List Node :=
  [⟨true, false, true, 0, [], none⟩, ⟨false, false, false, 0, [], none⟩]

/-- Unreachable tail of the spec's scenario 5: `add v2,v3` (a removable
instruction), `L2` (a non-removable label), `nop` (non-removable), all
without work-data. -/
def tailRunScenario : List Node :=
  [⟨false, false, true, 0, [], none⟩, ⟨true, false, false, 1, [], none⟩,
   ⟨false, false, false, 0, [], none⟩]

/-- Embedding of the `VirtReg` fields touched by the cleanup path: local
id, physical id (reset to the invalid marker, modelled as `none`) and the
`_memCell` back-pointer (an index into the cell store). -/
structure VirtReg where
  localId : Option ℕ
  physId : Option ℕ
  memCell : Option ℕ
deriving DecidableEq

/-- Modelled from the spec: `VirtReg::resetLocalId` / `VirtReg::resetPhysId`
(the header is not part of this snapshot); the spec says `cleanup()`
"resets `localId` and `physId` on every vreg the context tracked" (§4.G). -/
def resetIds (v : VirtReg) : VirtReg :=
  { v with localId := none, physId := none }

/-- Modelled from the spec: the `_contextVd` vector with `reset(false)`
clearing the items while "retaining capacity" (§4.G; the `PodVector`
header is not part of this snapshot). -/
structure VdVector where
  items : List ℕ
  capacity : ℕ
deriving DecidableEq

/-- Cleanup-relevant `RAContext` state: the tracked-vreg vector and the
`_extraBlock` pointer. -/
structure CleanupState where
  contextVd : VdVector
  extraBlock : Option ℕ
deriving DecidableEq

/-- Embedding of `RAContext::cleanup` (lines 566-578): walk the tracked
vregs resetting `localId` and `physId` in the shared store, then clear
`_contextVd` (retaining capacity) and null `_extraBlock`.  The store maps
vreg indices to `VirtReg` records. -/
def cleanup (store : ℕ → VirtReg) (ctx : CleanupState) : (ℕ → VirtReg) × CleanupState :=
  (ctx.contextVd.items.foldl
      (fun st i => fun j => if j = i then resetIds (st j) else st j) store,
   ⟨⟨[], ctx.contextVd.capacity⟩, none⟩)

/-- Embedding of the program consumed by `livenessAnalysis`: the node list
(index 0 is the function entry node `func`; `prev` of node `i+1` is node
`i`; the stop sentinel is past the end), the function-entry index, the
returning list populated by `fetch`, and the number of virtual registers
(`_contextVd.getLength()`). -/
structure Prog where
  nodes : List Node
  funcIdx : ℕ
  rets : List ℕ
  numVregs : ℕ

/-- Liveness bit-arrays attached to nodes, indexed by node position;
`none` models a null `RAData::liveness` pointer. -/
abbrev LiveTable := List (Option (Finset ℕ))

/-- Embedding of the tied-register loop of the Visit state
(lines 379-396): a write-only entry (`kWAll` and not `kRAll`) sets its bit
in the node's own stored set `bTmp` and clears it from the propagating set
`bCur`; every other entry sets the bit in both. -/
def processTied : List TiedReg → Finset ℕ → Finset ℕ → Finset ℕ × Finset ℕ
  | [], bTmp, bCur => (bTmp, bCur)
  | t :: rest, bTmp, bCur =>
    if t.wAll && !t.rAll then
      processTied rest (insert t.localId bTmp) (bCur.erase t.localId)
    else
      processTied rest (insert t.localId bTmp) (insert t.localId bCur)

/-- Modelled from the spec: the two-operand form
`bNode->_addBitsDelSource(bCur, bLen)` of `BitArray::_addBitsDelSource`
used by the Patch loop (line 415; `compilercontext_p.h` is not part of
this snapshot).  Per §4.E the destination gains the source's new bits
(`liveness' = liveness ∪ (bCur − liveness)`) and the returned flag
reports whether anything was added ("if unchanged, transition to Done");
per §4.B the source is left with `other & ~self`, i.e. exactly the newly
added bits.  Returns `(dst', src', changed)`. -/
def addBitsDelSource (dst src : Finset ℕ) : Finset ℕ × Finset ℕ × Bool :=
  let b := src \ dst
  (dst ∪ b, b, if b = ∅ then false else true)

/-- Modelled from the spec: the three-operand call
`bCur->_addBitsDelSource(wd->liveness, bCur, bLen)` of the Visit state
(line 364), whose destination and source are both `bCur` while the node's
stored set is the read-only middle operand.  The stored set is therefore
left unchanged here; `bCur` keeps exactly the bits not already stored
(§4.B: `other' = other & ~self`), and the flag reports whether anything
new remains (§4.E: "if unchanged … this branch has converged").  The
union into the stored set is performed by the immediately following Patch
iteration on the same node (line 415), which then continues walking
predecessors to re-propagate the newly added bits.  Returns
`(bCur', changed)`. -/
def addBitsDelSourceAliased (stored bCur : Finset ℕ) : Finset ℕ × Bool :=
  (bCur \ stored, if bCur \ stored = ∅ then false else true)

/-- Modelled from the spec: `BitArray::delBits` (§4.B: `self &= ~other`;
§4.E: the solver revisits a jump "if `bCur` has anything new" relative to
the jump's live-in).  Returns `(self', changed)`. -/
def delBits (self other : Finset ℕ) : Finset ℕ × Bool :=
  (self \ other, if self \ other = ∅ then false else true)

/-- Control transfers out of the Visit/Patch walking loops. -/
inductive Ctl
  | toTarget (idx : ℕ)
  | toDone
  | fault
deriving DecidableEq

/-- One iteration of the Patch loop (lines 409-420): add `bCur`'s new bits
into the node's stored set; stop at convergence, a label, or `func`;
`inr` means "continue at `prev`".  `Ctl.fault` models a failed
`ASMJIT_ASSERT` (missing work-data or null liveness). -/
def patchStepCore (p : Prog) (idx : ℕ) (bCur : Finset ℕ) (live : LiveTable) :
    (Finset ℕ × LiveTable × Ctl) ⊕ (Finset ℕ × LiveTable) :=
  match p.nodes[idx]? with
  | none => .inl (bCur, live, .fault)
  | some n =>
    if n.wd.isNone then .inl (bCur, live, .fault)
    else
      match live[idx]? with
      | none => .inl (bCur, live, .fault)
      | some none => .inl (bCur, live, .fault)
      | some (some bNode) =>
        let r := addBitsDelSource bNode bCur
        let live' := live.set idx (some r.1)
        if r.2.2 = false then .inl (r.2.1, live', .toDone)
        else if n.isLabel then .inl (r.2.1, live', .toTarget idx)
        else if idx = p.funcIdx then .inl (r.2.1, live', .toDone)
        else .inr (r.2.1, live')

/-- The Patch loop of `livenessAnalysis` (lines 409-420), walking from
`idx` towards node 0 through `prev` links. -/
def patchFrom (p : Prog) : ℕ → Finset ℕ → LiveTable → Finset ℕ × LiveTable × Ctl
  | 0, bCur, live =>
    match patchStepCore p 0 bCur live with
    | .inl r => r
    | .inr (b, l) => (b, l, .fault)
  | idx + 1, bCur, live =>
    match patchStepCore p (idx + 1) bCur live with
    | .inl r => r
    | .inr (b, l) => patchFrom p idx b l

/-- Result of one iteration of the Visit loop. -/
inductive VStep
  | stop (r : Finset ℕ × LiveTable × Ctl)
  | toPatch (b : Finset ℕ) (l : LiveTable)
  | toPrev (b : Finset ℕ) (l : LiveTable)

/-- One iteration of the Visit loop (lines 360-406).  On a node whose
liveness is already allocated, `bCur->_addBitsDelSource(wd->liveness,
bCur, bLen)` (line 364) strips the already-stored bits from `bCur` without
touching the stored set, and control moves to Patch on the same node if
new bits remain (there the union happens and the walk continues to
`prev`), else to Done; otherwise the node's set is allocated as a copy of
`bCur`, the tied loop is applied, and control moves to Target on a label,
to Done on `func`, or to `prev`. -/
def visitStepCore (p : Prog) (idx : ℕ) (bCur : Finset ℕ) (live : LiveTable) : VStep :=
  match p.nodes[idx]? with
  | none => .stop (bCur, live, .fault)
  | some n =>
    match n.wd with
    | none => .stop (bCur, live, .fault)
    | some tieds =>
      match live[idx]? with
      | none => .stop (bCur, live, .fault)
      | some (some bNode) =>
        let r := addBitsDelSourceAliased bNode bCur
        if r.2 then .toPatch r.1 live else .stop (r.1, live, .toDone)
      | some none =>
        let pr := processTied tieds bCur bCur
        let live' := live.set idx (some pr.1)
        if n.isLabel then .stop (pr.2, live', .toTarget idx)
        else if idx = p.funcIdx then .stop (pr.2, live', .toDone)
        else .toPrev pr.2 live'

/-- The Visit loop of `livenessAnalysis` (lines 360-406), walking from
`idx` towards node 0 through `prev` links. -/
def visitFrom (p : Prog) : ℕ → Finset ℕ → LiveTable → Finset ℕ × LiveTable × Ctl
  | 0, bCur, live =>
    match visitStepCore p 0 bCur live with
    | .stop r => r
    | .toPatch b l => patchFrom p 0 b l
    | .toPrev _ _ => (bCur, live, .fault)
  | idx + 1, bCur, live =>
    match visitStepCore p (idx + 1) bCur live with
    | .stop r => r
    | .toPatch b l => patchFrom p (idx + 1) b l
    | .toPrev b l => visitFrom p idx b l

/-- Embedding of a `LivenessTarget` record (lines 329-333): the label and
its remaining `from`/`jumpNext` chain, the head being the jump stored in
`ltCur->from`. -/
structure LTFrame where
  label : ℕ
  chain : List ℕ

/-- Machine state of the solver outside the Visit/Patch loops. -/
structure MSt where
  bCur : Finset ℕ
  live : LiveTable
  lt : List LTFrame
  rets : List ℕ

/-- Pending control state of the solver, naming the code labels of
`livenessAnalysis`: `visit`/`patch` walks, `target` entry (line 422),
`targetLoop` (the head of the do-loop at line 452), `jumpNext`
(line 463) and `done` (line 489). -/
inductive MCmd
  | visit (idx : ℕ)
  | patch (idx : ℕ)
  | target (idx : ℕ)
  | targetLoop
  | jumpNext
  | done

/-- Result of one driver step: continue, succeed (`kErrorOk`), or fail
(a failed assertion / modelling fault). -/
inductive StepRes
  | cont (c : MCmd) (s : MSt)
  | ok (live : LiveTable)
  | fail

/-- Embedding of the fallthrough block after a label's jump chain
(lines 481-487): reload `bCur` from the label's set, step to the label's
textual predecessor, and Done if it is a jump or has no work-data, Visit it
if unvisited, Patch if `delBits` leaves new bits, else Done. -/
def fallthroughStep (p : Prog) (idx : ℕ) (st : MSt) : StepRes :=
  match st.live[idx]? with
  | some (some lb) =>
    match idx with
    | 0 => .fail
    | i + 1 =>
      match p.nodes[i]? with
      | none => .fail
      | some pn =>
        if pn.isJmp || pn.wd.isNone then .cont .done { st with bCur := lb }
        else
          match st.live[i]? with
          | some none => .cont (.visit i) { st with bCur := lb }
          | some (some pl) =>
            let r := delBits lb pl
            if r.2 then .cont (.patch i) { st with bCur := r.1 }
            else .cont .done { st with bCur := r.1 }
          | none => .fail
  | _ => .fail

/-- Embedding of the Target entry (lines 422-449): a label with
`numRefs ≠ 0` pushes a new `LivenessTarget` (or re-enters the top one at
JumpNext); a label with `numRefs = 0` falls through to the block at
line 481. -/
def targetStep (p : Prog) (idx : ℕ) (st : MSt) : StepRes :=
  match p.nodes[idx]? with
  | none => .fail
  | some n =>
    if n.numRefs ≠ 0 then
      match st.lt with
      | f :: _ =>
        if f.label = idx then .cont .jumpNext st
        else
          match n.fromChain with
          | [] => .fail
          | f0 :: chRest => .cont .targetLoop { st with lt := ⟨idx, f0 :: chRest⟩ :: st.lt }
      | [] =>
        match n.fromChain with
        | [] => .fail
        | f0 :: chRest => .cont .targetLoop { st with lt := ⟨idx, f0 :: chRest⟩ :: st.lt }
    else
      fallthroughStep p idx st

/-- Embedding of the head of the Target do-loop (lines 452-459): store the
current jump in the frame, reload `bCur` from the label's set, then Visit
the jump if unvisited, else test it at JumpNext. -/
def targetLoopStep (_p : Prog) (st : MSt) : StepRes :=
  match st.lt with
  | [] => .fail
  | f :: _ =>
    match f.chain with
    | [] => .fail
    | fr :: _ =>
      match st.live[f.label]? with
      | some (some lb) =>
        match st.live[fr]? with
        | none => .fail
        | some none => .cont (.visit fr) { st with bCur := lb }
        | some (some _) => .cont .jumpNext { st with bCur := lb }
      | _ => .fail

/-- Embedding of JumpNext (lines 463-470) and of the pop at lines 473-478:
delete the jump's live-in bits from `bCur`; if bits remain, Patch the jump;
otherwise advance along the chain, or pop the frame and run the
fallthrough block of the label when the chain is exhausted. -/
def jumpNextStep (p : Prog) (st : MSt) : StepRes :=
  match st.lt with
  | [] => .fail
  | f :: ltRest =>
    match f.chain with
    | [] => .fail
    | fr :: chRest =>
      match st.live[fr]? with
      | some (some fl) =>
        let r := delBits st.bCur fl
        if r.2 then .cont (.patch fr) { st with bCur := r.1 }
        else
          match chRest with
          | _ :: _ => .cont .targetLoop { st with bCur := r.1, lt := ⟨f.label, chRest⟩ :: ltRest }
          | [] => fallthroughStep p f.label { st with bCur := r.1, lt := ltRest }
      | _ => .fail

/-- Embedding of Done (lines 489-503): resume the pending target at
JumpNext, else take the next returning seed, else succeed. -/
def doneStep (_p : Prog) (st : MSt) : StepRes :=
  match st.lt with
  | _ :: _ => .cont .jumpNext st
  | [] =>
    match st.rets with
    | r :: rest => .cont (.visit r) { st with rets := rest }
    | [] => .ok st.live

/-- One step of the solver driver. -/
def driverStep (p : Prog) : MCmd → MSt → StepRes
  | .visit idx, st =>
    match visitFrom p idx st.bCur st.live with
    | (b, l, .toTarget j) => .cont (.target j) { st with bCur := b, live := l }
    | (b, l, .toDone) => .cont .done { st with bCur := b, live := l }
    | (_, _, .fault) => .fail
  | .patch idx, st =>
    match patchFrom p idx st.bCur st.live with
    | (b, l, .toTarget j) => .cont (.target j) { st with bCur := b, live := l }
    | (b, l, .toDone) => .cont .done { st with bCur := b, live := l }
    | (_, _, .fault) => .fail
  | .target idx, st => targetStep p idx st
  | .targetLoop, st => targetLoopStep p st
  | .jumpNext, st => jumpNextStep p st
  | .done, st => doneStep p st

/-- Fuel-driven driver loop; `none` on fuel exhaustion or fault. -/
def solverLoop (p : Prog) : ℕ → MCmd → MSt → Option LiveTable
  | 0, _, _ => none
  | fuel + 1, c, st =>
    match driverStep p c st with
    | .cont c' st' => solverLoop p fuel c' st'
    | .ok l => some l
    | .fail => none

/-- Embedding of `RAContext::livenessAnalysis` (lines 335-507): with no
virtual registers the analysis returns immediately (all liveness pointers
stay null); otherwise `bCur` starts zeroed, the first returning node is
visited, and the driver runs to completion.  `fuel` bounds the number of
driver steps; `none` models a missing returning seed (asserted at
line 350), a faulted assertion, or fuel exhaustion. -/
def livenessAnalysis (p : Prog) (fuel : ℕ) : Option LiveTable :=
  let initTable : LiveTable := List.replicate p.nodes.length none
  if p.numVregs = 0 then some initTable
  else
    match p.rets with
    | [] => none
    | r :: rest => solverLoop p fuel (.visit r) ⟨∅, initTable, [], rest⟩

/-- Local ids of all tied entries of a node. -/
def tiedIds (ts : List TiedReg) : Finset ℕ := (ts.map TiedReg.localId).toFinset

/-- Definition following the spec's words (§4.E): the defs-only (kill)
entries are those with `kWAll` set and `kRAll` clear. -/
def killIds (ts : List TiedReg) : Finset ℕ :=
  ((ts.filter (fun t => t.wAll && !t.rAll)).map TiedReg.localId).toFinset

/-- Definition following the spec's words (§4.E): every other tied entry is
a use. -/
def useIds (ts : List TiedReg) : Finset ℕ :=
  ((ts.filter (fun t => !(t.wAll && !t.rAll))).map TiedReg.localId).toFinset

/-- Definition following the spec's words: the dataflow equation
`live-in[n] = (live-out[n] − defs-only[n]) ∪ uses[n]` solved backwards over
a straight-line program, the live-out of the last node being empty.  On a
straight-line program this recurrence is the unique fixed point of the
dataflow equations, so entry `i` is the fixed-point live-in set at node
`i`'s entry. -/
def specLiveIns : List (List TiedReg) → List (Finset ℕ)
  | [] => []
  | ts :: rest =>
    let tail := specLiveIns rest
    ((tail.headD ∅ \ killIds ts) ∪ useIds ts) :: tail

/-- Set-level effect of one node on the propagating set of the backward
walk. -/
def lineTransfer (ts : List TiedReg) (b : Finset ℕ) : Finset ℕ :=
  (b \ killIds ts) ∪ useIds ts

/-- Propagating set after walking a straight-line segment backwards
(the head of the list is walked last). -/
def lineOut : List (List TiedReg) → Finset ℕ → Finset ℕ
  | [], b => b
  | ts :: rest, b => lineTransfer ts (lineOut rest b)

/-- Stored per-node sets after walking a straight-line segment backwards:
each node stores the propagating set that reached it united with all its
tied ids (the Visit state sets the bit of every tied entry in `bTmp`). -/
def lineStored : List (List TiedReg) → Finset ℕ → List (Finset ℕ)
  | [], _ => []
  | ts :: rest, b => (lineOut rest b ∪ tiedIds ts) :: lineStored rest b

/-- The straight-line program of the spec's scenario 6:
`func; def v4 (write-only tied entry); use v4 (read-only); ret`, with one
virtual register of local id 0, the returning list holding the `ret`
node. -/
def lineProg : Prog :=
  ⟨[⟨false, false, true, 0, [], some []⟩,
    ⟨false, false, true, 0, [], some [⟨0, false, true⟩]⟩,
    ⟨false, false, true, 0, [], some [⟨0, true, false⟩]⟩,
    ⟨false, false, true, 0, [], some []⟩], 0, [3], 1⟩

/-- A straight-line program with two returning seeds:
`func; nop; ret; use v0; ret`, the returning list holding both `ret`
nodes.  The second seed's backward walk reaches the already-visited node 2
carrying the new bit of v0, which the Patch loop must push through
nodes 1 and 0. -/
def twoSeedProg : Prog :=
  ⟨[⟨false, false, true, 0, [], some []⟩,
    ⟨false, false, true, 0, [], some []⟩,
    ⟨false, false, true, 0, [], some []⟩,
    ⟨false, false, true, 0, [], some [⟨0, true, false⟩]⟩,
    ⟨false, false, true, 0, [], some []⟩], 0, [2, 4], 1⟩

/-- A two-return diamond: `func; jcc L2; use v0; ret; L2: ret` with v0 an
incoming argument, node 1 a jump to the label at node 4 (`numRefs = 1`,
jump chain `[1]`), and both `ret` nodes in the returning list — an
ordinary conditional early return. -/
def diamondProg : Prog :=
  ⟨[⟨false, false, true, 0, [], some []⟩,
    ⟨false, true, true, 0, [], some []⟩,
    ⟨false, false, true, 0, [], some [⟨0, true, false⟩]⟩,
    ⟨false, false, true, 0, [], some []⟩,
    ⟨true, false, true, 1, [1], some []⟩,
    ⟨false, false, true, 0, [], some []⟩], 0, [3, 5], 1⟩

/-- A function using no virtual registers: `func; ret`, both nodes carrying
(empty) work-data, `numVregs = 0`. -/
def zeroVregProg : Prog :=
  ⟨[⟨false, false, true, 0, [], some []⟩,
    ⟨false, false, true, 0, [], some []⟩], 0, [1], 0⟩

theorem lexGE_trans {a b c : RACell} (h1 : lexGE a b) (h2 : lexGE b c) : lexGE a c := by
  unfold lexGE at *
  omega

theorem mem_insertStackCell {a s : ℕ} {l : List RACell} {x : RACell}
    (hx : x ∈ insertStackCell a s l) : x = ⟨s, a, 0⟩ ∨ x ∈ l := by
  induction l with
  | nil => simpa [insertStackCell] using hx
  | cons cur rest ih =>
    unfold insertStackCell at hx
    split at hx
    · rcases List.mem_cons.1 hx with h | h
      · exact Or.inr (List.mem_cons.2 (Or.inl h))
      · rcases ih h with h' | h'
        · exact Or.inl h'
        · exact Or.inr (List.mem_cons.2 (Or.inr h'))
    · rcases List.mem_cons.1 hx with h | h
      · exact Or.inl h
      · exact Or.inr h

theorem insertStackCell_sorted {a s : ℕ} {l : List RACell}
    (hl : l.Pairwise lexGE) : (insertStackCell a s l).Pairwise lexGE := by
  induction l with
  | nil => simp [insertStackCell, List.Pairwise]
  | cons cur rest ih =>
    rcases List.pairwise_cons.1 hl with ⟨hcur, hrest⟩
    unfold insertStackCell
    split
    · rename_i hguard
      refine List.pairwise_cons.2 ⟨?_, ih hrest⟩
      intro x hx
      rcases mem_insertStackCell hx with rfl | hmem
      · unfold lexGE
        simp only
        omega
      · exact hcur x hmem
    · rename_i hguard
      push_neg at hguard
      have hnew : lexGE ⟨s, a, 0⟩ cur := by
        unfold lexGE
        simp only
        omega
      refine List.pairwise_cons.2 ⟨?_, hl⟩
      intro x hx
      rcases List.mem_cons.1 hx with rfl | hmem
      · exact hnew
      · exact lexGE_trans hnew (hcur x hmem)

theorem foldl_newStackCell_sorted (reqs : List (ℕ × ℕ)) :
    ∀ s : MemState, s.memStackCells.Pairwise lexGE →
      ((reqs.foldl (fun t r => newStackCell t r.1 r.2) s).memStackCells).Pairwise lexGE := by
  induction reqs with
  | nil => intro s hs; simpa using hs
  | cons r rest ih =>
    intro s hs
    exact ih (newStackCell s r.1 r.2) (insertStackCell_sorted hs)

theorem getDefaultAlignment_gt32 {size : ℕ} (h : 32 < size) :
    getDefaultAlignment size = 64 := by
  unfold getDefaultAlignment
  rw [if_pos h]

theorem getDefaultAlignment_le (size : ℕ) : getDefaultAlignment size ≤ 64 := by
  unfold getDefaultAlignment
  repeat' split
  all_goals omega

theorem stackCellParams_zero_fst (size : ℕ) :
    (stackCellParams size 0).1 = getDefaultAlignment size := by
  have h64 := getDefaultAlignment_le size
  simp only [stackCellParams]
  split_ifs
  all_goals first | rfl | omega

theorem clog2_eq {n k : ℕ} (hk : 1 ≤ k) (hlo : 2 ^ (k - 1) < n) (hhi : n ≤ 2 ^ k) :
    Nat.clog 2 n = k := by
  have hle : Nat.clog 2 n ≤ k := (Nat.le_pow_iff_clog_le (by norm_num)).1 hhi
  have hge : ¬ Nat.clog 2 n ≤ k - 1 := by
    intro h
    have := (Nat.le_pow_iff_clog_le (by norm_num : (1:ℕ) < 2)).2 h
    omega
  omega

theorem getDefaultAlignment_eq_min_pow (size : ℕ) :
    getDefaultAlignment size = min 64 (2 ^ Nat.clog 2 (max size 1)) := by
  rcases le_or_lt size 1 with h | h1
  · have hm : max size 1 = 1 := by omega
    have hd : getDefaultAlignment size = 1 := by
      unfold getDefaultAlignment
      rw [if_neg (by omega), if_neg (by omega), if_neg (by omega), if_neg (by omega),
        if_neg (by omega), if_neg (by omega)]
    rw [hd, hm, Nat.clog_one_right]
    decide
  · have hm : max size 1 = size := by omega
    rw [hm]
    rcases le_or_lt size 2 with h2 | h2
    · have hd : getDefaultAlignment size = 2 := by
        unfold getDefaultAlignment
        rw [if_neg (by omega), if_neg (by omega), if_neg (by omega), if_neg (by omega),
          if_neg (by omega), if_pos (by omega)]
      have hc : Nat.clog 2 size = 1 := clog2_eq (by norm_num) (by simpa using h1) (by simpa using h2)
      rw [hd, hc]
      decide
    · rcases le_or_lt size 4 with h4 | h4
      · have hd : getDefaultAlignment size = 4 := by
          unfold getDefaultAlignment
          rw [if_neg (by omega), if_neg (by omega), if_neg (by omega), if_neg (by omega),
            if_pos (by omega)]
        have hc : Nat.clog 2 size = 2 := clog2_eq (by norm_num) (by simpa using h2) (by simpa using h4)
        rw [hd, hc]
        decide
      · rcases le_or_lt size 8 with h8 | h8
        · have hd : getDefaultAlignment size = 8 := by
            unfold getDefaultAlignment
            rw [if_neg (by omega), if_neg (by omega), if_neg (by omega), if_pos (by omega)]
          have hc : Nat.clog 2 size = 3 := clog2_eq (by norm_num) (by simpa using h4) (by simpa using h8)
          rw [hd, hc]
          decide
        · rcases le_or_lt size 16 with h16 | h16
          · have hd : getDefaultAlignment size = 16 := by
              unfold getDefaultAlignment
              rw [if_neg (by omega), if_neg (by omega), if_pos (by omega)]
            have hc : Nat.clog 2 size = 4 := clog2_eq (by norm_num) (by simpa using h8) (by simpa using h16)
            rw [hd, hc]
            decide
          · rcases le_or_lt size 32 with h32 | h32
            · have hd : getDefaultAlignment size = 32 := by
                unfold getDefaultAlignment
                rw [if_neg (by omega), if_pos (by omega)]
              have hc : Nat.clog 2 size = 5 :=
                clog2_eq (by norm_num) (by simpa using h16) (by simpa using h32)
              rw [hd, hc]
              decide
            · have hbig : ¬ Nat.clog 2 size ≤ 5 := by
                intro hcl
                have := (Nat.le_pow_iff_clog_le (by norm_num : (1:ℕ) < 2)).2 hcl
                norm_num at this
                omega
              have h64 : 64 ≤ 2 ^ Nat.clog 2 size := by
                calc (64 : ℕ) = 2 ^ 6 := by norm_num
                _ ≤ 2 ^ Nat.clog 2 size := Nat.pow_le_pow_right (by norm_num) (by omega)
              rw [getDefaultAlignment_gt32 h32, Nat.min_eq_left h64]

/-- C1: the claim asserts that after `resolveCellOffsets` every cell offset
is a multiple of the cell's alignment (besides disjointness and
nonnegativity).  The code computes `Utils::alignDiff(stackPos,
gapAlignment)` at line 207 and discards the result ("TODO: Not used!"), so
the stack region starts at the unaligned end of the variable region: with
one 1-byte variable cell and one stack cell of size 4 / alignment 4, the
stack cell is assigned offset 1, and `1 % 4 ≠ 0`. -/
theorem c1_stackCell_misaligned_offset :
    ((newVarCell resetState 1 0 false).bind
        (fun s => resolveCellOffsets (newStackCell s 4 4))).map
      (fun t => t.memStackCells.map (fun c => (c.offset, c.alignment, c.size)))
      = some [(1, 4, 4)]
  ∧ ¬ (1 % 4 = 0) := by
  constructor
  · decide
  · decide

/-- C7: `_newStackCell` normalisation.  A zero alignment becomes the
smallest power of two that is at least the size, clamped to 64 (the
threshold cascade of `BaseContext_getDefaultAlignment`); an alignment above
64 is clamped to 64; the stored size is the size rounded up to a multiple
of the final alignment.  For size 7 / alignment 0 the cell gets alignment
8 and size 8, and `_memAllTotal = 8` after `resolveCellOffsets`. -/
theorem c7_newStackCell_normalisation :
    (∀ size : ℕ, (stackCellParams size 0).1 = min 64 (2 ^ Nat.clog 2 (max size 1)))
  ∧ (∀ size alignment : ℕ, 64 < alignment → (stackCellParams size alignment).1 = 64)
  ∧ (∀ size alignment : ℕ,
      (stackCellParams size alignment).2 = alignTo size (stackCellParams size alignment).1)
  ∧ stackCellParams 7 0 = (8, 8)
  ∧ (resolveCellOffsets (newStackCell resetState 7 0)).map MemState.memAllTotal = some 8 := by
  refine ⟨?_, ?_, ?_, by decide, by decide⟩
  · intro size
    rw [stackCellParams_zero_fst]
    exact getDefaultAlignment_eq_min_pow size
  · intro size alignment h
    have h0 : alignment ≠ 0 := by omega
    simp [stackCellParams, h0, h]
  · intro size alignment
    rfl

/-- C8: the stack-cell list stays sorted by `(alignment, size)`
non-increasing under any sequence of `_newStackCell` calls (each insertion
walks to the first position whose `(alignment, size)` is not strictly
greater); inserting (size 4, align 4) then (size 16, align 16) yields the
16/16 cell first, and `resolveCellOffsets` places the 16-cell at offset 0,
the 4-cell at offset 16, with `_memAllTotal = 20`. -/
theorem c8_stackCells_sorted :
    (∀ reqs : List (ℕ × ℕ),
        ((reqs.foldl (fun t r => newStackCell t r.1 r.2) resetState).memStackCells).Pairwise lexGE)
  ∧ (newStackCell (newStackCell resetState 4 4) 16 16).memStackCells.map
      (fun c => (c.alignment, c.size)) = [(16, 16), (4, 4)]
  ∧ (resolveCellOffsets (newStackCell (newStackCell resetState 4 4) 16 16)).map
      (fun t => (t.memStackCells, t.memAllTotal))
      = some ([⟨16, 16, 0⟩, ⟨4, 4, 16⟩], 20) := by
  refine ⟨?_, by decide, by decide⟩
  intro reqs
  exact foldl_newStackCell_sorted reqs resetState (by simp [resetState])

theorem u32_lt (a : ℕ) : u32 a < 4294967296 := by
  unfold u32
  omega

theorem u32_eq_of_lt {a : ℕ} (h : a < 4294967296) : u32 a = a := by
  unfold u32
  omega

theorem u32_u32_add (a b : ℕ) : u32 (u32 a + b) = u32 (a + b) := by
  unfold u32
  omega

theorem varStep_classPos {p : VarPos} {τ off : ℕ} {p' : VarPos}
    (h : varStep p τ = some (off, p')) :
    off = classPos p τ ∧ classPos p' τ = u32 (classPos p τ + τ) ∧
      ∀ σ, σ ≠ τ → classPos p' σ = classPos p σ := by
  unfold varStep at h
  split at h
  all_goals try exact Option.noConfusion h
  all_goals rw [Option.some.injEq, Prod.mk.injEq] at h
  all_goals obtain ⟨h1, h2⟩ := h
  all_goals subst h1
  all_goals subst h2
  all_goals refine ⟨by simp [classPos], by simp [classPos], ?_⟩
  all_goals intro σ hσ
  all_goals simp [classPos, hσ]

theorem assignVarOffsets_total :
    ∀ (l : List RACell) (p : VarPos), (∀ c ∈ l, validVarSize c) →
      ∃ l' pf, assignVarOffsets l p = some (l', pf) := by
  intro l
  induction l with
  | nil => intro p _; exact ⟨[], p, rfl⟩
  | cons c rest ih =>
    intro p hall
    have hsz : validVarSize c := hall c (List.mem_cons_self c rest)
    have hstep : ∃ off p', varStep p c.size = some (off, p') := by
      rcases hsz with h | h | h | h | h | h | h <;> rw [h] <;> exact ⟨_, _, rfl⟩
    obtain ⟨off, p', hv⟩ := hstep
    obtain ⟨rest', pff, ha⟩ := ih p' (fun d hd => hall d (List.mem_cons_of_mem _ hd))
    refine ⟨{ c with offset := off } :: rest', pff, ?_⟩
    simp only [assignVarOffsets, hv, ha]

theorem assignVarOffsets_classOffsets :
    ∀ (l : List RACell) (p : VarPos) (l' : List RACell) (pf : VarPos),
      assignVarOffsets l p = some (l', pf) →
      (∀ σ, classPos p σ < 4294967296) →
      ∀ σ, ((l'.filter (fun c => c.size == σ)).map RACell.offset)
          = (List.range ((l.filter (fun c => c.size == σ)).length)).map
              (fun k => u32 (classPos p σ + σ * k)) := by
  intro l
  induction l with
  | nil =>
    intro p l' pf h hp σ
    simp only [assignVarOffsets, Option.some.injEq, Prod.mk.injEq] at h
    obtain ⟨h1, h2⟩ := h
    subst h1
    simp
  | cons c rest ih =>
    intro p l' pf h hp σ
    rcases hv : varStep p c.size with _ | op
    · rw [assignVarOffsets, hv] at h
      exact Option.noConfusion h
    · obtain ⟨off, p'⟩ := op
      rcases ha : assignVarOffsets rest p' with _ | rp
      · rw [assignVarOffsets, hv] at h
        simp only [ha] at h
        exact Option.noConfusion h
      · obtain ⟨rest', pff⟩ := rp
        rw [assignVarOffsets, hv] at h
        simp only [ha, Option.some.injEq, Prod.mk.injEq] at h
        obtain ⟨hl', hpf⟩ := h
        subst hl'
        obtain ⟨hoff, hadv, hoth⟩ := varStep_classPos hv
        have hp' : ∀ τ, classPos p' τ < 4294967296 := by
          intro τ
          by_cases hτ : τ = c.size
          · subst hτ; rw [hadv]; exact u32_lt _
          · rw [hoth τ hτ]; exact hp τ
        have ihσ := ih p' rest' pff ha hp' σ
        by_cases hcs : c.size = σ
        · subst hcs
          have hfc : (({ c with offset := off } : RACell).size == c.size) = true := by simp
          simp only [List.filter_cons, hfc, List.map_cons, List.length_cons, if_true,
            beq_self_eq_true, ite_true]
          rw [List.range_succ_eq_map, List.map_cons, List.map_map]
          refine List.cons_eq_cons.mpr ⟨?_, ?_⟩
          · rw [hoff, Nat.mul_zero, Nat.add_zero, u32_eq_of_lt (hp c.size)]
          · rw [ihσ]
            apply List.map_congr_left
            intro k _
            simp only [Function.comp]
            rw [hadv, u32_u32_add]
            congr 1
            rw [Nat.mul_succ]
            ring
        · have hfc : (({ c with offset := off } : RACell).size == σ) = false := by
            simp [hcs]
          have hfc2 : (c.size == σ) = false := by simp [hcs]
          simp only [List.filter_cons, hfc, hfc2, Bool.false_eq_true, if_false]
          rw [hoth σ (fun hh => hcs hh.symm)] at ihσ
          exact ihσ

theorem varSum_eq_classes :
    ∀ l : List RACell, (∀ c ∈ l, validVarSize c) →
      (l.map RACell.size).sum
        = (l.filter (fun c => c.size == 1)).length * 1
        + (l.filter (fun c => c.size == 2)).length * 2
        + (l.filter (fun c => c.size == 4)).length * 4
        + (l.filter (fun c => c.size == 8)).length * 8
        + (l.filter (fun c => c.size == 16)).length * 16
        + (l.filter (fun c => c.size == 32)).length * 32
        + (l.filter (fun c => c.size == 64)).length * 64 := by
  intro l
  induction l with
  | nil => intro _; simp
  | cons c rest ih =>
    intro hall
    have hc : validVarSize c := hall c (List.mem_cons_self c rest)
    have ihr := ih (fun d hd => hall d (List.mem_cons_of_mem _ hd))
    rcases hc with h | h | h | h | h | h | h
    all_goals simp [List.filter_cons, h, ihr]
    all_goals omega

theorem stackRegionStart_eq_varSum (s : MemState) (hcm : countersMatch s) :
    stackRegionStart s = u32 ((s.memVarCells.map RACell.size).sum) := by
  obtain ⟨h1, h2, h4, h8, h16, h32, h64, hall⟩ := hcm
  rw [varSum_eq_classes s.memVarCells hall]
  unfold stackRegionStart varClassBases u32
  simp only
  omega

theorem assignStackOffsets_noGap :
    ∀ (l : List RACell) (st : StackPos),
      st.gapSize = 0 → st.allTotal < 4294967296 → st.stackPos < 4294967296 →
      (∀ c ∈ l, 1 ≤ c.size) →
      (assignStackOffsets l st).2.gapSize = 0
      ∧ (assignStackOffsets l st).2.allTotal = u32 (st.allTotal + (l.map RACell.size).sum)
      ∧ (assignStackOffsets l st).2.stackPos = u32 (st.stackPos + (l.map RACell.size).sum)
      ∧ ((assignStackOffsets l st).1.map RACell.offset)
          = prefixOffsets st.stackPos (l.map RACell.size) := by
  intro l
  induction l with
  | nil =>
    intro st h0 hA hS _
    refine ⟨h0, ?_, ?_, rfl⟩
    · simp [assignStackOffsets, u32_eq_of_lt hA]
    · simp [assignStackOffsets, u32_eq_of_lt hS]
  | cons c rest ih =>
    intro st h0 hA hS hall
    have hc1 : 1 ≤ c.size := hall c (List.mem_cons_self c rest)
    have hgap : ¬(c.size ≤ st.gapSize ∧ c.alignment ≤ st.gapAlignment) := by
      rw [h0]
      rintro ⟨h, _⟩
      omega
    have hrest := ih ⟨st.gapSize, st.gapPos, st.gapAlignment, u32 (st.stackPos + c.size),
        u32 (st.allTotal + c.size)⟩
      h0 (u32_lt _) (u32_lt _) (fun d hd => hall d (List.mem_cons_of_mem _ hd))
    obtain ⟨ih1, ih2, ih3, ih4⟩ := hrest
    simp only [assignStackOffsets, if_neg hgap]
    refine ⟨ih1, ?_, ?_, ?_⟩
    · rw [ih2]
      simp only
      rw [u32_u32_add, List.map_cons, List.sum_cons, Nat.add_assoc]
    · rw [ih3]
      simp only
      rw [u32_u32_add, List.map_cons, List.sum_cons, Nat.add_assoc]
    · simp only [List.map_cons]
      rw [prefixOffsets, ih4]

theorem resolveCellOffsets_eq (s : MemState)
    (hall : ∀ c ∈ s.memVarCells, validVarSize c) :
    ∃ varCells pf,
      assignVarOffsets s.memVarCells (varClassBases s) = some (varCells, pf)
      ∧ resolveCellOffsets s = some { s with
          memVarCells := varCells
          memStackCells := (assignStackOffsets s.memStackCells
            ⟨0, stackRegionStart s + 0, headStackAlignment s, stackRegionStart s + 0,
              stackRegionStart s + 0⟩).1
          memAllTotal := (assignStackOffsets s.memStackCells
            ⟨0, stackRegionStart s + 0, headStackAlignment s, stackRegionStart s + 0,
              stackRegionStart s + 0⟩).2.allTotal } := by
  obtain ⟨varCells, pf, hv⟩ := assignVarOffsets_total s.memVarCells (varClassBases s) hall
  refine ⟨varCells, pf, hv, ?_⟩
  unfold resolveCellOffsets
  dsimp only
  rw [hv]
  rfl

theorem classPos_varClassBases_lt (s : MemState) (σ : ℕ) :
    classPos (varClassBases s) σ < 4294967296 := by
  unfold classPos varClassBases
  dsimp only
  repeat' split
  all_goals first | exact u32_lt _ | omega

/-- C9 counterexample: the claim asserts that in the scenario with three
4-byte variable cells and two 1-byte variable cells the class pointer `p2`
is `0` after resolve; by the claim's own formula `p2 = p4 + 4·n4 = 12`, and
the code indeed computes `12`. -/
theorem c9_pos2_is_twelve_not_zero :
    varScenario.map (fun t => (varClassBases t).pos2) = some 12 ∧ (12 : ℕ) ≠ 0 := by
  constructor
  · decide
  · decide

/-- C9 (amended): `resolveCellOffsets` lays the variable region out by size
class from largest to smallest, with base pointers `p64 = 0`,
`p32 = p64 + 64·n64`, ..., `p1 = p2 + 2·n2` (`varClassBases`), each
variable cell receiving the current pointer of its class which then
advances by the class size — so the cells of class `σ` receive offsets
`base σ, base σ + σ, base σ + 2σ, ...` in list order.  In the scenario with
three 4-byte and two 1-byte variable cells: `p4 = 0`, `p2 = 12` (not 0 as
the claim stated), `p1 = 12` and `_memAllTotal = 14`. -/
theorem c9_variable_region_layout (s s' : MemState)
    (hcm : countersMatch s)
    (hr : resolveCellOffsets s = some s') :
    (∀ σ : ℕ, ((s'.memVarCells.filter (fun c => c.size == σ)).map RACell.offset)
        = (List.range ((s.memVarCells.filter (fun c => c.size == σ)).length)).map
            (fun k => u32 (classPos (varClassBases s) σ + σ * k)))
  ∧ varScenario.map (fun t => ((varClassBases t).pos4, (varClassBases t).pos2,
      (varClassBases t).pos1)) = some (0, 12, 12)
  ∧ (varScenario.bind resolveCellOffsets).map MemState.memAllTotal = some 14 := by
  obtain ⟨_, _, _, _, _, _, _, hall⟩ := hcm
  obtain ⟨varCells, pf, hv, hres⟩ := resolveCellOffsets_eq s hall
  rw [hr] at hres
  have hvar : s'.memVarCells = varCells := by
    obtain rfl := Option.some.inj hres
    rfl
  refine ⟨?_, by decide, by decide⟩
  intro σ
  rw [hvar]
  exact assignVarOffsets_classOffsets s.memVarCells (varClassBases s) varCells pf hv
    (classPos_varClassBases_lt s) σ

/-- C9 witness: the layout theorem applied to the concrete scenario
state. -/
theorem c9_variable_region_layout_w :
    countersMatch varScenarioState
  ∧ ((varResolvedState.memVarCells.filter (fun c => c.size == 4)).map RACell.offset
      = (List.range ((varScenarioState.memVarCells.filter (fun c => c.size == 4)).length)).map
          (fun k => u32 (classPos (varClassBases varScenarioState) 4 + 4 * k))) :=
  ⟨by decide,
    (c9_variable_region_layout varScenarioState varResolvedState (by decide) (by decide)).1 4⟩

/-- C10: the gap between the variable region and the stack region is always
empty.  The alignment difference computed at line 207 is discarded, so
`gapSize` is `0` when the stack-cell loop starts and (for stack cells of
nonzero size) stays `0`; no stack cell is ever placed at the gap cursor:
each one is placed at the running stack position, contiguously in list
order starting at the end of the variable region, and `_memAllTotal` is
exactly the sum of all variable-cell sizes plus all rounded stack-cell
sizes, with no padding bytes. -/
theorem c10_gap_empty_total_exact (s s' : MemState)
    (hcm : countersMatch s)
    (hstack : ∀ c ∈ s.memStackCells, 1 ≤ c.size)
    (hbound : (s.memVarCells.map RACell.size).sum
        + (s.memStackCells.map RACell.size).sum < 4294967296)
    (hr : resolveCellOffsets s = some s') :
    s'.memAllTotal
      = (s.memVarCells.map RACell.size).sum + (s.memStackCells.map RACell.size).sum
  ∧ (s'.memStackCells.map RACell.offset)
      = prefixOffsets (u32 ((s.memVarCells.map RACell.size).sum))
          (s.memStackCells.map RACell.size)
  ∧ (assignStackOffsets s.memStackCells
        ⟨0, stackRegionStart s + 0, headStackAlignment s, stackRegionStart s + 0,
          stackRegionStart s + 0⟩).2.gapSize = 0 := by
  obtain ⟨_, _, _, _, _, _, _, hall⟩ := hcm
  obtain ⟨varCells, pf, hv, hres⟩ := resolveCellOffsets_eq s hall
  rw [hr] at hres
  obtain rfl := Option.some.inj hres
  have hstart : stackRegionStart s = u32 ((s.memVarCells.map RACell.size).sum) :=
    stackRegionStart_eq_varSum s ⟨‹_›, ‹_›, ‹_›, ‹_›, ‹_›, ‹_›, ‹_›, hall⟩
  have hno := assignStackOffsets_noGap s.memStackCells
    ⟨0, stackRegionStart s + 0, headStackAlignment s, stackRegionStart s + 0,
      stackRegionStart s + 0⟩ rfl (by simpa using u32_lt _) (by simpa using u32_lt _) hstack
  obtain ⟨hg, hA, hS, hoffs⟩ := hno
  refine ⟨?_, ?_, hg⟩
  · show (assignStackOffsets s.memStackCells _).2.allTotal = _
    rw [hA]
    simp only [Nat.add_zero] at *
    rw [hstart, u32_u32_add, u32_eq_of_lt hbound]
  · show ((assignStackOffsets s.memStackCells _).1.map RACell.offset) = _
    rw [hoffs]
    simp only [Nat.add_zero]
    rw [hstart]

/-- C10 witness: the theorem applied to the concrete state with one 4-byte
variable cell and two stack cells. -/
theorem c10_gap_empty_total_exact_w :
    (countersMatch gapScenarioState
      ∧ (∀ c ∈ gapScenarioState.memStackCells, 1 ≤ c.size)
      ∧ (gapScenarioState.memVarCells.map RACell.size).sum
          + (gapScenarioState.memStackCells.map RACell.size).sum < 4294967296)
  ∧ gapResolvedState.memAllTotal
      = (gapScenarioState.memVarCells.map RACell.size).sum
        + (gapScenarioState.memStackCells.map RACell.size).sum :=
  ⟨⟨by decide, by decide, by decide⟩,
    (c10_gap_empty_total_exact gapScenarioState gapResolvedState
      (by decide) (by decide) (by decide) (by decide)).1⟩

theorem sweepRun_false (l : List Node) :
    sweepRun l false = l.filter (fun n => !n.removable) := by
  induction l with
  | nil => rfl
  | cons n rest ih =>
    unfold sweepRun
    by_cases hr : n.removable
    · simp [hr, ih, List.filter_cons]
    · by_cases hl : n.isLabel <;> simp [hr, hl, ih, List.filter_cons]

theorem sweepRun_true (l : List Node) :
    sweepRun l true
      = (l.dropWhile (fun n => !(n.isLabel && !n.removable))).filter
          (fun n => !n.removable) := by
  induction l with
  | nil => rfl
  | cons n rest ih =>
    by_cases hr : n.removable
    · have hp : (!(n.isLabel && !n.removable)) = true := by simp [hr]
      rw [List.dropWhile_cons, if_pos hp]
      unfold sweepRun
      rw [if_pos hr]
      exact ih
    · by_cases hl : n.isLabel
      · have hp : (!(n.isLabel && !n.removable)) = false := by simp [hr, hl]
        rw [List.dropWhile_cons, if_neg (by simp [hp])]
        unfold sweepRun
        simp [hr, hl, sweepRun_false, List.filter_cons]
      · have hp : (!(n.isLabel && !n.removable)) = true := by simp [hl]
        rw [List.dropWhile_cons, if_pos hp]
        unfold sweepRun
        simp only [hr, hl, Bool.false_eq_true, if_false, ite_false]
        exact ih

/-- C6 counterexample: on a run starting with a REMOVABLE label the claim's
rule keeps the following non-removable node (the label was encountered, so
only removable nodes are deleted), but the code deletes it: the
`removeEverything` flag is turned off only by a non-removable label
(line 300-303: the label check happens in the `!remove` branch only). -/
theorem c6_removable_label_does_not_switch :
    sweepRun removableLabelRun true = []
  ∧ claimSweep removableLabelRun = [⟨false, false, false, 0, [], none⟩]
  ∧ sweepRun removableLabelRun true ≠ claimSweep removableLabelRun := by
  refine ⟨by decide, by decide, by decide⟩

/-- C6 (amended): for every unreachable seed, the sweep walks the maximal
run of nodes without work-data (stopping at a node with work-data or at the
stop sentinel), deletes every node of the run before the first
NON-REMOVABLE label — a removable label is itself deleted and does not end
the delete-everything mode — and from that label onwards deletes exactly
the nodes whose removable flag is true; nodes after the run are untouched.
For the unreachable tail `ret; add v2,v3; L2: nop`, the `add` node is
removed and the `L2: nop` nodes survive. -/
theorem c6_unreachable_sweep :
    (∀ nodes : List Node,
      removeUnreachableFromSeed nodes
        = (((nodes.takeWhile (fun n => !n.hasWorkData)).dropWhile
              (fun n => !(n.isLabel && !n.removable))).filter (fun n => !n.removable))
          ++ nodes.dropWhile (fun n => !n.hasWorkData))
  ∧ removeUnreachableFromSeed tailRunScenario
      = [⟨true, false, false, 1, [], none⟩, ⟨false, false, false, 0, [], none⟩] := by
  refine ⟨?_, by decide⟩
  intro nodes
  unfold removeUnreachableFromSeed
  rw [sweepRun_true]

theorem cleanup_store_spec (items : List ℕ) (store : ℕ → VirtReg) :
    ∀ j, (items.foldl (fun st i => fun k => if k = i then resetIds (st k) else st k) store) j
      = if j ∈ items then resetIds (store j) else store j := by
  induction items generalizing store with
  | nil => intro j; simp
  | cons i rest ih =>
    intro j
    rw [List.foldl_cons, ih]
    by_cases hji : j = i
    · subst hji
      by_cases hj : j ∈ rest <;> simp [hj, resetIds]
    · by_cases hj : j ∈ rest <;> simp [hj, hji, resetIds]

/-- C5 counterexample: `cleanup` does not reset `_memCell`.  With one
tracked vreg whose `_memCell` points at cell 7, the pointer is still `7`
after `cleanup`, while the claim requires it to be reset (null). -/
theorem c5_memCell_survives_cleanup :
    ((cleanup (fun _ => ⟨some 0, some 1, some 7⟩) ⟨⟨[0], 4⟩, some 3⟩).1 0).memCell = some 7
  ∧ (some 7 : Option ℕ) ≠ none := by
  refine ⟨by decide, by decide⟩

/-- C5 (amended): `cleanup()` resets `localId` and `physId` on every vreg
the context tracked, leaves every vreg's `_memCell` unchanged, clears the
vreg table while retaining its capacity, and sets `_extraBlock` to null. -/
theorem c5_cleanup_resets (store : ℕ → VirtReg) (ctx : CleanupState) :
    (∀ i ∈ ctx.contextVd.items,
        ((cleanup store ctx).1 i).localId = none ∧ ((cleanup store ctx).1 i).physId = none)
  ∧ (∀ i, ((cleanup store ctx).1 i).memCell = (store i).memCell)
  ∧ (cleanup store ctx).2.contextVd.items = []
  ∧ (cleanup store ctx).2.contextVd.capacity = ctx.contextVd.capacity
  ∧ (cleanup store ctx).2.extraBlock = none := by
  refine ⟨?_, ?_, rfl, rfl, rfl⟩
  · intro i hi
    show ((ctx.contextVd.items.foldl _ store) i).localId = none
      ∧ ((ctx.contextVd.items.foldl _ store) i).physId = none
    rw [cleanup_store_spec]
    simp [hi, resetIds]
  · intro i
    show ((ctx.contextVd.items.foldl _ store) i).memCell = (store i).memCell
    rw [cleanup_store_spec]
    by_cases hi : i ∈ ctx.contextVd.items <;> simp [hi, resetIds]

/-- C5 witness: the amended cleanup theorem applied to a concrete state. -/
theorem c5_cleanup_resets_w :
    (0 ∈ (⟨⟨[0], 4⟩, some 3⟩ : CleanupState).contextVd.items)
  ∧ ((cleanup (fun _ => ⟨some 0, some 1, some 7⟩) ⟨⟨[0], 4⟩, some 3⟩).1 0).localId = none :=
  ⟨by decide, ((c5_cleanup_resets (fun _ => ⟨some 0, some 1, some 7⟩) ⟨⟨[0], 4⟩, some 3⟩).1
      0 (by decide)).1⟩

theorem tiedIds_cons (t : TiedReg) (rest : List TiedReg) :
    tiedIds (t :: rest) = insert t.localId (tiedIds rest) := by
  simp [tiedIds]

theorem killIds_subset (ts : List TiedReg) : killIds ts ⊆ tiedIds ts := by
  intro x hx
  simp only [killIds, List.mem_toFinset, List.mem_map, List.mem_filter] at hx
  obtain ⟨t, ⟨ht, _⟩, rfl⟩ := hx
  simp only [tiedIds, List.mem_toFinset, List.mem_map]
  exact ⟨t, ht, rfl⟩

theorem useIds_subset (ts : List TiedReg) : useIds ts ⊆ tiedIds ts := by
  intro x hx
  simp only [useIds, List.mem_toFinset, List.mem_map, List.mem_filter] at hx
  obtain ⟨t, ⟨ht, _⟩, rfl⟩ := hx
  simp only [tiedIds, List.mem_toFinset, List.mem_map]
  exact ⟨t, ht, rfl⟩

theorem mem_map_of_mem_killIds {ts : List TiedReg} {x : ℕ} (hx : x ∈ killIds ts) :
    x ∈ ts.map TiedReg.localId := by
  simp only [killIds, List.mem_toFinset, List.mem_map, List.mem_filter] at hx
  obtain ⟨t, ⟨ht, _⟩, rfl⟩ := hx
  exact List.mem_map.2 ⟨t, ht, rfl⟩

theorem mem_map_of_mem_useIds {ts : List TiedReg} {x : ℕ} (hx : x ∈ useIds ts) :
    x ∈ ts.map TiedReg.localId := by
  simp only [useIds, List.mem_toFinset, List.mem_map, List.mem_filter] at hx
  obtain ⟨t, ⟨ht, _⟩, rfl⟩ := hx
  exact List.mem_map.2 ⟨t, ht, rfl⟩

theorem processTied_spec :
    ∀ (ts : List TiedReg) (bTmp bCur : Finset ℕ), (ts.map TiedReg.localId).Nodup →
      processTied ts bTmp bCur = (bTmp ∪ tiedIds ts, (bCur \ killIds ts) ∪ useIds ts) := by
  intro ts
  induction ts with
  | nil =>
    intro bTmp bCur _
    simp [processTied, tiedIds, killIds, useIds]
  | cons t rest ih =>
    intro bTmp bCur hnd
    have hnd' : (rest.map TiedReg.localId).Nodup := by
      rw [List.map_cons, List.nodup_cons] at hnd
      exact hnd.2
    have hnotin : t.localId ∉ rest.map TiedReg.localId := by
      rw [List.map_cons, List.nodup_cons] at hnd
      exact hnd.1
    by_cases hw : (t.wAll && !t.rAll) = true
    · have hkill : killIds (t :: rest) = insert t.localId (killIds rest) := by
        unfold killIds
        rw [List.filter_cons, if_pos hw]
        simp
      have huse : useIds (t :: rest) = useIds rest := by
        unfold useIds
        rw [List.filter_cons, if_neg (by simp [hw])]
      have hpt : processTied (t :: rest) bTmp bCur
          = processTied rest (insert t.localId bTmp) (bCur.erase t.localId) := by
        simp only [processTied]
        rw [if_pos hw]
      rw [hpt, ih _ _ hnd', tiedIds_cons, hkill, huse]
      refine Prod.ext ?_ ?_
      · show insert t.localId bTmp ∪ tiedIds rest = bTmp ∪ insert t.localId (tiedIds rest)
        ext x
        simp only [Finset.mem_union, Finset.mem_insert]
        tauto
      · show (bCur.erase t.localId \ killIds rest) ∪ useIds rest
            = (bCur \ insert t.localId (killIds rest)) ∪ useIds rest
        ext x
        simp only [Finset.mem_union, Finset.mem_sdiff, Finset.mem_erase, Finset.mem_insert]
        tauto
    · have hkill : killIds (t :: rest) = killIds rest := by
        unfold killIds
        rw [List.filter_cons, if_neg hw]
      have huse : useIds (t :: rest) = insert t.localId (useIds rest) := by
        unfold useIds
        rw [List.filter_cons, if_pos (by simp [hw])]
        simp
      have hknotin : t.localId ∉ killIds rest :=
        fun hmem => hnotin (mem_map_of_mem_killIds hmem)
      have hpt : processTied (t :: rest) bTmp bCur
          = processTied rest (insert t.localId bTmp) (insert t.localId bCur) := by
        simp only [processTied]
        rw [if_neg hw]
      rw [hpt, ih _ _ hnd', tiedIds_cons, hkill, huse]
      refine Prod.ext ?_ ?_
      · show insert t.localId bTmp ∪ tiedIds rest = bTmp ∪ insert t.localId (tiedIds rest)
        ext x
        simp only [Finset.mem_union, Finset.mem_insert]
        tauto
      · show (insert t.localId bCur \ killIds rest) ∪ useIds rest
            = (bCur \ killIds rest) ∪ insert t.localId (useIds rest)
        ext x
        by_cases hx : x = t.localId
        · subst hx
          simp only [Finset.mem_union, Finset.mem_sdiff, Finset.mem_insert]
          simp [hknotin]
        · simp only [Finset.mem_union, Finset.mem_sdiff, Finset.mem_insert]
          tauto

theorem lineOut_append (l : List (List TiedReg)) (t : List TiedReg) (b : Finset ℕ) :
    lineOut (l ++ [t]) b = lineOut l (lineTransfer t b) := by
  induction l with
  | nil => rfl
  | cons x rest ih => simp [lineOut, ih]

theorem lineStored_append (l : List (List TiedReg)) (t : List TiedReg) (b : Finset ℕ) :
    lineStored (l ++ [t]) b = lineStored l (lineTransfer t b) ++ [b ∪ tiedIds t] := by
  induction l with
  | nil => rfl
  | cons x rest ih => simp [lineStored, ih, lineOut_append]

theorem lineStored_length (l : List (List TiedReg)) (b : Finset ℕ) :
    (lineStored l b).length = l.length := by
  induction l generalizing b with
  | nil => rfl
  | cons x rest ih => simp [lineStored, ih]

theorem specLiveIns_headD (l : List (List TiedReg)) :
    (specLiveIns l).headD ∅ = lineOut l ∅ := by
  induction l with
  | nil => rfl
  | cons t rest ih =>
    show ((specLiveIns rest).headD ∅ \ killIds t) ∪ useIds t = lineTransfer t (lineOut rest ∅)
    rw [ih]
    rfl

theorem lineStored_eq_spec (l : List (List TiedReg)) :
    ∀ j, j < l.length →
      (lineStored l ∅).getD j ∅
        = (specLiveIns l).getD j ∅ ∪ tiedIds (l.getD j []) := by
  induction l with
  | nil =>
    intro j hj
    exact absurd hj (by simp)
  | cons t rest ih =>
    intro j hj
    cases j with
    | zero =>
      show lineOut rest ∅ ∪ tiedIds t
          = (((specLiveIns rest).headD ∅ \ killIds t) ∪ useIds t) ∪ tiedIds t
      rw [specLiveIns_headD]
      have hk := killIds_subset t
      have hu := useIds_subset t
      ext x
      simp only [Finset.mem_union, Finset.mem_sdiff]
      constructor
      · rintro (hx | hx)
        · by_cases hxk : x ∈ killIds t
          · exact Or.inr (hk hxk)
          · exact Or.inl (Or.inl ⟨hx, hxk⟩)
        · exact Or.inr hx
      · rintro ((⟨hx, _⟩ | hx) | hx)
        · exact Or.inl hx
        · exact Or.inr (hu hx)
        · exact Or.inr hx
    | succ jj =>
      show (lineStored rest ∅).getD jj ∅ = _
      rw [ih jj (by simpa using hj)]
      rfl

theorem lt_length_of_getElem?_eq_some {α : Type _} {l : List α} {i : ℕ} {a : α}
    (h : l[i]? = some a) : i < l.length := by
  by_contra hlt
  rw [List.getElem?_eq_none (by omega)] at h
  exact Option.noConfusion h

theorem visitFrom_line (p : Prog) (hfunc : p.funcIdx = 0) :
    ∀ (idx : ℕ) (bCur : Finset ℕ) (live : LiveTable),
      (∀ j, j ≤ idx → ∃ nj : Node, p.nodes[j]? = some nj ∧ nj.isLabel = false
        ∧ ∃ ts, nj.wd = some ts ∧ (ts.map TiedReg.localId).Nodup) →
      (∀ j, j ≤ idx → live[j]? = some none) →
      ∃ liveF,
        visitFrom p idx bCur live
          = (lineOut ((p.nodes.take (idx + 1)).map (fun n => n.wd.getD [])) bCur, liveF,
              Ctl.toDone)
        ∧ (∀ j, j ≤ idx → liveF[j]?
            = some (some ((lineStored ((p.nodes.take (idx + 1)).map (fun n => n.wd.getD []))
                bCur).getD j ∅)))
        ∧ (∀ j, idx < j → liveF[j]? = live[j]?) := by
  intro idx
  induction idx with
  | zero =>
    intro bCur live hnodes hlive
    obtain ⟨n0, hn0, hlab, ts, hwd, hnd⟩ := hnodes 0 le_rfl
    have hl0 := hlive 0 le_rfl
    have hlen0 : 0 < live.length := lt_length_of_getElem?_eq_some hl0
    have htake : (p.nodes.take 1).map (fun n => n.wd.getD []) = [ts] := by
      rw [List.take_succ, List.take_zero, hn0]
      simp [hwd]
    refine ⟨live.set 0 (some (bCur ∪ tiedIds ts)), ?_, ?_, ?_⟩
    · have hv : visitFrom p 0 bCur live
          = ((bCur \ killIds ts) ∪ useIds ts,
              live.set 0 (some (bCur ∪ tiedIds ts)), Ctl.toDone) := by
        simp only [visitFrom, visitStepCore, hn0, hwd, hl0,
          processTied_spec ts bCur bCur hnd, hlab, Bool.false_eq_true, if_false, hfunc,
          if_pos rfl, if_true]
      rw [hv, htake]
      rfl
    · intro j hj
      interval_cases j
      rw [List.getElem?_set_eq_of_lt _ hlen0, htake]
      rfl
    · intro j hj
      exact List.getElem?_set_ne (by omega)
  | succ i ih =>
    intro bCur live hnodes hlive
    obtain ⟨n1, hn1, hlab, ts, hwd, hnd⟩ := hnodes (i + 1) le_rfl
    have hl1 := hlive (i + 1) le_rfl
    have hlen1 : i + 1 < live.length := lt_length_of_getElem?_eq_some hl1
    have hstep : visitFrom p (i + 1) bCur live
        = visitFrom p i ((bCur \ killIds ts) ∪ useIds ts)
            (live.set (i + 1) (some (bCur ∪ tiedIds ts))) := by
      simp only [visitFrom, visitStepCore, hn1, hwd, hl1,
        processTied_spec ts bCur bCur hnd, hlab, Bool.false_eq_true, if_false, hfunc]
      rw [if_neg (by omega)]
    have htake : (p.nodes.take (i + 2)).map (fun n => n.wd.getD [])
        = ((p.nodes.take (i + 1)).map (fun n => n.wd.getD [])) ++ [ts] := by
      rw [List.take_succ, hn1]
      simp [hwd]
    obtain ⟨liveF, heq, hstored, hup⟩ := ih ((bCur \ killIds ts) ∪ useIds ts)
      (live.set (i + 1) (some (bCur ∪ tiedIds ts)))
      (fun j hj => hnodes j (by omega))
      (fun j hj => by
        rw [List.getElem?_set_ne (by omega)]
        exact hlive j (by omega))
    have hlenp : i + 1 < p.nodes.length := lt_length_of_getElem?_eq_some hn1
    have hslen : (lineStored ((p.nodes.take (i + 1)).map (fun n => n.wd.getD []))
        (lineTransfer ts bCur)).length = i + 1 := by
      rw [lineStored_length, List.length_map, List.length_take]
      omega
    refine ⟨liveF, ?_, ?_, ?_⟩
    · rw [hstep, heq, htake, lineOut_append]
      rfl
    · intro j hj
      rcases Nat.lt_or_ge j (i + 1) with hji | hji
      · rw [hstored j (by omega), htake, lineStored_append]
        rw [List.getD_append _ _ _ _ (by rw [hslen]; omega)]
        rfl
      · have hj1 : j = i + 1 := by omega
        subst hj1
        rw [hup (i + 1) (by omega), List.getElem?_set_eq_of_lt _ hlen1, htake,
          lineStored_append]
        rw [List.getD_append_right _ _ _ _ (by rw [hslen])]
        rw [hslen]
        simp
    · intro j hj
      rw [hup j (by omega), List.getElem?_set_ne (by omega)]

/-- C2 (amended): `livenessAnalysis` succeeds on every function that uses
at least one virtual register (part (2) of the counterexample forces this:
with none, the analysis returns at lines 340-341 leaving every liveness
pointer null), whose nodes are label-free, all carry work-data with one
tied entry per vreg, and whose single returning node is its last node
(part (3) forces the label-free/single-return restriction: a second
returning seed inherits the `bCur` the first walk left at `func`, line 356
allocating `bCur` only once, and a label's fallthrough re-patches from the
polluted label set), given a driver-step budget of at least two in the
fuel-indexed model; and then every node's work-data `liveness` pointer is
non-null and equals the fixed-point live-in set at that node's entry
UNITED WITH the ids of the node's tied vregs (part (1) forces the "∪ tied
ids" fix: the Visit state sets the bit of every tied entry, including
write-only defs, in the stored set, line 388). -/
theorem c2_line_liveness (nodes : List Node) (k fuel : ℕ)
    (hk : k ≠ 0) (hfuel : 2 ≤ fuel) (hne : nodes ≠ [])
    (hnodes : ∀ n ∈ nodes, n.isLabel = false
      ∧ ∃ ts, n.wd = some ts ∧ (ts.map TiedReg.localId).Nodup) :
    (livenessAnalysis ⟨nodes, 0, [nodes.length - 1], k⟩ fuel).isSome = true
  ∧ ∀ j, j < nodes.length →
      ((livenessAnalysis ⟨nodes, 0, [nodes.length - 1], k⟩ fuel).getD []).getD j none
        = some ((specLiveIns (nodes.map (fun n => n.wd.getD []))).getD j ∅
            ∪ tiedIds ((nodes.map (fun n => n.wd.getD [])).getD j [])) := by
  have hn : 0 < nodes.length := List.length_pos.2 hne
  obtain ⟨g, rfl⟩ : ∃ g, fuel = g + 2 := ⟨fuel - 2, by omega⟩
  have hsucc : nodes.length - 1 + 1 = nodes.length := by omega
  obtain ⟨liveF, heq, hstored, _⟩ :=
    visitFrom_line ⟨nodes, 0, [nodes.length - 1], k⟩ rfl (nodes.length - 1) ∅
      (List.replicate nodes.length none)
      (fun j hj => by
        have hjlt : j < nodes.length := by omega
        refine ⟨nodes[j], List.getElem?_eq_getElem hjlt, ?_⟩
        have hmem : nodes[j] ∈ nodes := List.getElem_mem hjlt
        obtain ⟨h1, h2⟩ := hnodes nodes[j] hmem
        exact ⟨h1, h2⟩)
      (fun j hj => by
        have hjlt : j < nodes.length := by omega
        simp [List.getElem?_replicate, hjlt])
  rw [hsucc, List.take_length] at heq hstored
  have hana : livenessAnalysis ⟨nodes, 0, [nodes.length - 1], k⟩ (g + 2) = some liveF := by
    unfold livenessAnalysis
    rw [if_neg hk]
    show solverLoop _ (g + 1 + 1) _ _ = _
    rw [show solverLoop ⟨nodes, 0, [nodes.length - 1], k⟩ (g + 1 + 1) (.visit (nodes.length - 1))
          ⟨∅, List.replicate nodes.length none, [], []⟩
        = match driverStep ⟨nodes, 0, [nodes.length - 1], k⟩ (.visit (nodes.length - 1))
            ⟨∅, List.replicate nodes.length none, [], []⟩ with
          | .cont c' st' => solverLoop ⟨nodes, 0, [nodes.length - 1], k⟩ (g + 1) c' st'
          | .ok l => some l
          | .fail => none from rfl]
    rw [show driverStep ⟨nodes, 0, [nodes.length - 1], k⟩ (.visit (nodes.length - 1))
          ⟨∅, List.replicate nodes.length none, [], []⟩
        = match visitFrom ⟨nodes, 0, [nodes.length - 1], k⟩ (nodes.length - 1) ∅
            (List.replicate nodes.length none) with
          | (b, l, .toTarget j) => .cont (.target j) ⟨b, l, [], []⟩
          | (b, l, .toDone) => .cont .done ⟨b, l, [], []⟩
          | (_, _, .fault) => .fail from rfl]
    rw [heq]
    rfl
  refine ⟨by rw [hana]; rfl, ?_⟩
  intro j hj
  rw [hana]
  have hst := hstored j (by omega)
  show liveF.getD j none = _
  rw [List.getD_eq_getElem?_getD, hst]
  have hlen : j < (nodes.map (fun n => n.wd.getD [])).length := by
    rw [List.length_map]; exact hj
  rw [show (lineStored (nodes.map (fun n => n.wd.getD [])) ∅).getD j ∅
      = (specLiveIns (nodes.map (fun n => n.wd.getD []))).getD j ∅
        ∪ tiedIds ((nodes.map (fun n => n.wd.getD [])).getD j [])
    from lineStored_eq_spec _ j hlen]
  rfl

/-- C2 counterexample, refuting the claim and forcing each qualification
of the amendment.  (1) On `def v4; use v4; ret` (`lineProg`) the def
node's stored liveness set is `{v4}` while the fixed-point live-in set at
the def's entry is `∅` (the write-only def kills `v4`): the stored set is
live-in united with the node's tied ids — forcing the "∪ tied ids" fix.
(2) On a function whose nodes all carry work-data but which uses no
virtual registers (`zeroVregProg`), `livenessAnalysis` returns success
immediately (lines 340-341) with every liveness pointer still null —
refuting the claim's "non-null" part on a successful run and forcing the
"at least one virtual register" qualification.  (3) On the legal
two-return diamond `func; jcc L2; use v0; ret; L2: ret` (`diamondProg`)
the second returning node `L2: ret` stores `{v0}`, yet its fixed-point
live-in united with its tied ids is `∅`: it has no successors and no tied
entries, so its own dataflow equation `(∅ \ kill) ∪ use = ∅` (the
`lineTransfer [] ∅` conjunct) pins its live-in in every solution.  The
cause is in the code: `bCur` is allocated once (line 356) and never
cleared between returning seeds, so the set left at `func` by the first
walk leaks into every set the second seed's walk allocates, and the
label's fallthrough block (lines 481-487) re-patches the label's textual
predecessor from the polluted label set — forcing the "label-free, single
returning node" restriction of the amendment. -/
theorem c2_liveness_vs_fixedpoint :
    (((livenessAnalysis lineProg 5).getD []).getD 1 none = some {0}
      ∧ (specLiveIns (lineProg.nodes.map (fun n => n.wd.getD []))).getD 1 ∅ = ∅
      ∧ ({0} : Finset ℕ) ≠ ∅)
  ∧ (livenessAnalysis zeroVregProg 5 = some [none, none]
      ∧ zeroVregProg.nodes.all Node.hasWorkData = true)
  ∧ (((livenessAnalysis diamondProg 20).getD []).getD 5 none = some {0}
      ∧ lineTransfer [] (∅ : Finset ℕ) = ∅
      ∧ some ({0} : Finset ℕ) ≠ some (∅ : Finset ℕ)) := by
  exact ⟨⟨by decide, by decide, by decide⟩, ⟨by decide, by decide⟩,
    by decide, by decide, by decide⟩

/-- C2 witness: the amended straight-line theorem applied to `lineProg`'s
node list at the use node (index 2). -/
theorem c2_line_liveness_w :
    ((1 : ℕ) ≠ 0 ∧ (2 : ℕ) ≤ 5 ∧ lineProg.nodes ≠ [])
  ∧ ((livenessAnalysis ⟨lineProg.nodes, 0, [lineProg.nodes.length - 1], 1⟩ 5).getD []).getD
      2 none
      = some ((specLiveIns (lineProg.nodes.map (fun n => n.wd.getD []))).getD 2 ∅
          ∪ tiedIds ((lineProg.nodes.map (fun n => n.wd.getD [])).getD 2 [])) :=
  ⟨⟨by decide, by decide, by decide⟩,
    (c2_line_liveness lineProg.nodes 1 5 (by decide) (by decide) (by decide)
      (by decide)).2 2 (by decide)⟩

/-- §4.E re-propagation: on `twoSeedProg` the second seed's walk reaches
the already-visited node 2 carrying the new bit of v0; the Visit state's
`bCur->_addBitsDelSource(wd->liveness, bCur, bLen)` (line 364) leaves the
new bit in `bCur` and hands control to the Patch loop on the same node,
which unions it into the stored set and continues walking predecessors
(lines 409-419), so nodes 2, 1 and 0 all end with `{v0}` stored. -/
theorem patch_repropagates_through_visited :
    livenessAnalysis twoSeedProg 8
      = some [some {0}, some {0}, some {0}, some {0}, some ∅] := by
  decide

/-- C3 counterexample: for `def v4; use v4; ret` with a write-only def, the
claim says the stored live-in set of the def node is empty; the code stores
`{v4}` there (the Visit state sets the bit of a write-only tied entry in
the node's own set, line 388). -/
theorem c3_def_node_stores_v4 :
    livenessAnalysis lineProg 5
      = some [some ∅, some {0}, some {0}, some ∅]
  ∧ (some ({0} : Finset ℕ)) ≠ some (∅ : Finset ℕ) := by
  refine ⟨by decide, by decide⟩

/-- C3 (amended): for the straight-line program `def v4; use v4; ret` in
which the def of v4 is a write-only tied entry, after `livenessAnalysis`
the stored live-in set of the def node is `{v4}` (not empty: the def's own
bit is included) and the stored live-in set of the use node is `{v4}`. -/
theorem c3_line_scenario :
    ((livenessAnalysis lineProg 5).getD []).getD 1 none = some {0}
  ∧ ((livenessAnalysis lineProg 5).getD []).getD 2 none = some {0} := by
  refine ⟨by decide, by decide⟩

/-- C4: in the Visit state, a tied entry with `kWAll` set and `kRAll`
clear has its vreg's bit set in the node's own stored live-in set (`bTmp`)
and cleared from the propagating set `bCur`; every other flag combination
has the bit set in both (lines 379-396).  Stated for tied arrays with
pairwise distinct local ids (one tied entry per vreg, as `fetch` builds
them). -/
theorem c4_visit_kill_use (ts : List TiedReg) (bTmp bCur : Finset ℕ)
    (hnd : (ts.map TiedReg.localId).Nodup) :
    ∀ t ∈ ts,
      t.localId ∈ (processTied ts bTmp bCur).1
      ∧ ((t.wAll && !t.rAll) = true → t.localId ∉ (processTied ts bTmp bCur).2)
      ∧ ((t.wAll && !t.rAll) = false → t.localId ∈ (processTied ts bTmp bCur).2) := by
  intro t ht
  rw [processTied_spec ts bTmp bCur hnd]
  have htied : t.localId ∈ tiedIds ts := by
    simp only [tiedIds, List.mem_toFinset, List.mem_map]
    exact ⟨t, ht, rfl⟩
  refine ⟨Finset.mem_union_right _ htied, ?_, ?_⟩
  · intro hw
    have hkill : t.localId ∈ killIds ts := by
      simp only [killIds, List.mem_toFinset, List.mem_map, List.mem_filter]
      exact ⟨t, ⟨ht, hw⟩, rfl⟩
    intro hmem
    rcases Finset.mem_union.1 hmem with hmem | hmem
    · exact (Finset.mem_sdiff.1 hmem).2 hkill
    · simp only [useIds, List.mem_toFinset, List.mem_map, List.mem_filter] at hmem
      obtain ⟨t', ⟨ht', hw'⟩, hid⟩ := hmem
      have : t' = t := List.inj_on_of_nodup_map hnd ht' ht hid
      subst this
      rw [hw] at hw'
      exact Bool.noConfusion hw'
  · intro hw
    apply Finset.mem_union_right
    simp only [useIds, List.mem_toFinset, List.mem_map, List.mem_filter]
    exact ⟨t, ⟨ht, by simp [hw]⟩, rfl⟩

/-- C4 witness: the kill/use theorem applied to a concrete two-entry tied
array (a write-only def of vreg 0 and a read-only use of vreg 1). -/
theorem c4_visit_kill_use_w :
    (([⟨0, false, true⟩, ⟨1, true, false⟩] : List TiedReg).map TiedReg.localId).Nodup
  ∧ (0 ∈ (processTied [⟨0, false, true⟩, ⟨1, true, false⟩] {2} {2}).1
      ∧ (((⟨0, false, true⟩ : TiedReg).wAll && !(⟨0, false, true⟩ : TiedReg).rAll) = true →
          0 ∉ (processTied [⟨0, false, true⟩, ⟨1, true, false⟩] {2} {2}).2)
      ∧ (((⟨0, false, true⟩ : TiedReg).wAll && !(⟨0, false, true⟩ : TiedReg).rAll) = false →
          0 ∈ (processTied [⟨0, false, true⟩, ⟨1, true, false⟩] {2} {2}).2)) :=
  ⟨by decide,
    c4_visit_kill_use [⟨0, false, true⟩, ⟨1, true, false⟩] {2} {2} (by decide)
      ⟨0, false, true⟩ (by decide)⟩

/-- C7 witness: the normalisation theorem applied at size 16 with the
over-large alignment 100. -/
theorem c7_newStackCell_normalisation_w :
    (64 : ℕ) < 100 ∧ (stackCellParams 16 100).1 = 64 :=
  ⟨by decide, c7_newStackCell_normalisation.2.1 16 100 (by decide)⟩

end AsmJitRA
